/-
Verification of the image filters in retro_image_converter.py.

The program applies per-pixel transforms to an RGB image.  We embed the
image buffer as a width/height pair together with a total pixel function,
channel values as natural numbers, and the floating-point arithmetic of
the source (numpy / Python floats) as exact rational arithmetic.  Python
`int()` truncation toward zero and numpy's `astype(np.uint8)` cast are
modelled explicitly.
-/
import Mathlib

set_option allowUnsafeReducibility true
attribute [local semireducible] Rat.add Rat.mul Rat.sub Rat.inv

namespace RetroImage

/-- An RGB pixel: (red, green, blue) channel values. -/
abbrev RGB := ℕ × ℕ × ℕ

/-- An in-memory image buffer: dimensions plus a (total) pixel function.
Only coordinates with `x < width` and `y < height` are meaningful. -/
structure Img where
  width : ℕ
  height : ℕ
  px : ℕ → ℕ → RGB

/-- Well-formedness: every in-bounds pixel has 8-bit channel values. -/
def Img.Wf (img : Img) : Prop :=
  ∀ x < img.width, ∀ y < img.height,
    (img.px x y).1 ≤ 255 ∧ (img.px x y).2.1 ≤ 255 ∧ (img.px x y).2.2 ≤ 255

instance (img : Img) : Decidable img.Wf := by
  unfold Img.Wf; infer_instance

/-- Python `int()` on a rational: truncation toward zero.  On a reduced
fraction this is T-division of the numerator by the denominator. -/
def ratTrunc (q : ℚ) : ℤ := q.num.tdiv q.den

theorem ratTrunc_eq_floor {q : ℚ} (h : 0 ≤ q) : ratTrunc q = ⌊q⌋ := by
  rw [ratTrunc, Rat.floor_def, Int.tdiv_eq_ediv (Rat.num_nonneg.mpr h) (by positivity)]

theorem ratTrunc_natCast (n : ℕ) : ratTrunc (n : ℚ) = n := by
  rw [ratTrunc_eq_floor (by positivity), Int.floor_natCast]

theorem ratTrunc_nonneg {q : ℚ} (h : 0 ≤ q) : 0 ≤ ratTrunc q := by
  rw [ratTrunc_eq_floor h]
  exact Int.floor_nonneg.mpr h

theorem ratTrunc_le {q : ℚ} {n : ℕ} (h0 : 0 ≤ q) (h : q ≤ n) : ratTrunc q ≤ n := by
  rw [ratTrunc_eq_floor h0]
  calc ⌊q⌋ ≤ ⌊(n : ℚ)⌋ := Int.floor_le_floor h
  _ = n := Int.floor_natCast n

/-- numpy `astype(np.uint8)` applied to a (nonnegative-in-practice) float:
truncate toward zero, then wrap to the low 8 bits. -/
def npCastU8 (q : ℚ) : ℕ := ((ratTrunc q) % 256).toNat

theorem npCastU8_of_le {q : ℚ} (h0 : 0 ≤ q) (h : q ≤ 255) :
    npCastU8 q = (ratTrunc q).toNat := by
  unfold npCastU8
  have h1 : 0 ≤ ratTrunc q := ratTrunc_nonneg h0
  have h2 : ratTrunc q ≤ (255 : ℕ) := ratTrunc_le h0 (by exact_mod_cast h)
  rw [Int.emod_eq_of_lt h1 (by omega)]

theorem npCastU8_natCast (n : ℕ) (h : n ≤ 255) : npCastU8 (n : ℚ) = n := by
  rw [npCastU8_of_le (by positivity) (by exact_mod_cast h), ratTrunc_natCast]
  exact Int.toNat_natCast n

/-! ## Channel-shift (glitch) filter: `apply_refined_glitch_effect`

The Python source views the image as a numpy array of shape (height,
width, 3); we embed each channel plane as a function of (row, column). -/

/-- The red channel plane, indexed (row, column) as numpy does. -/
def redPlane (img : Img) : ℕ → ℕ → ℕ := fun y x => (img.px x y).1

/-- The green channel plane, indexed (row, column). -/
def greenPlane (img : Img) : ℕ → ℕ → ℕ := fun y x => (img.px x y).2.1

/-- The blue channel plane, indexed (row, column). -/
def bluePlane (img : Img) : ℕ → ℕ → ℕ := fun y x => (img.px x y).2.2

/-- numpy `np.roll(a, k, axis=1)`: element at column `x` comes from column
`(x - k) mod w`. -/
def rollCols (f : ℕ → ℕ → ℕ) (w : ℕ) (k : ℤ) : ℕ → ℕ → ℕ :=
  fun y x => f y ((((x : ℤ) - k) % (w : ℤ))).toNat

/-- numpy `np.roll(a, k, axis=0)`: element at row `y` comes from row
`(y - k) mod h`. -/
def rollRows (f : ℕ → ℕ → ℕ) (h : ℕ) (k : ℤ) : ℕ → ℕ → ℕ :=
  fun y x => f ((((y : ℤ) - k) % (h : ℤ))).toNat x

/-- The plane `shifted_red = np.roll(red_channel, shift_amount, axis=1)`. -/
def shiftedRed (img : Img) (shift_amount : ℤ) : ℕ → ℕ → ℕ :=
  rollCols (redPlane img) img.width shift_amount

/-- The plane `shifted_green = np.roll(green_channel, -shift_amount // 2, axis=0)`.
Python parses `-shift_amount // 2` as `(-shift_amount) // 2`, and `//` is
floor division, hence `Int.fdiv`. -/
def shiftedGreen (img : Img) (shift_amount : ℤ) : ℕ → ℕ → ℕ :=
  rollRows (greenPlane img) img.height ((-shift_amount).fdiv 2)

/-- One channel of the blend
`(intensity * shifted + (1 - intensity) * original).astype(np.uint8)`. -/
def blendChan (intensity : ℚ) (s o : ℕ) : ℕ :=
  npCastU8 (intensity * s + (1 - intensity) * o)

/-- The channel-shift glitch filter, `apply_refined_glitch_effect`. -/
def apply_refined_glitch_effect (img : Img) (shift_amount : ℤ) (intensity : ℚ) : Img :=
  { width := img.width
    height := img.height
    px := fun x y =>
      (blendChan intensity (shiftedRed img shift_amount y x) (redPlane img y x),
       blendChan intensity (shiftedGreen img shift_amount y x) (greenPlane img y x),
       bluePlane img y x) }

/-- A 1×4 test image whose green values identify each row. -/
def imgRows : Img := ⟨1, 4, fun _ y => (0, y * 10, 0)⟩

/-- A 2×1 test image whose red values identify each column. -/
def imgCols : Img := ⟨2, 1, fun x _ => (x, 0, 0)⟩

/-- A constant 2×2 test image. -/
def imgTest : Img := ⟨2, 2, fun _ _ => (3, 4, 5)⟩

theorem shiftedRed_le (img : Img) (s : ℤ) (hwf : img.Wf) (y x : ℕ)
    (hx : x < img.width) (hy : y < img.height) : shiftedRed img s y x ≤ 255 := by
  unfold shiftedRed rollCols
  have hw : (0 : ℤ) < (img.width : ℤ) := by exact_mod_cast Nat.pos_of_ne_zero (by omega)
  have h1 : 0 ≤ ((x : ℤ) - s) % (img.width : ℤ) := Int.emod_nonneg _ (by omega)
  have h2 : ((x : ℤ) - s) % (img.width : ℤ) < (img.width : ℤ) := Int.emod_lt_of_pos _ hw
  have hc : (((x : ℤ) - s) % (img.width : ℤ)).toNat < img.width := by omega
  exact (hwf _ hc y hy).1

theorem shiftedGreen_le (img : Img) (s : ℤ) (hwf : img.Wf) (y x : ℕ)
    (hx : x < img.width) (hy : y < img.height) : shiftedGreen img s y x ≤ 255 := by
  unfold shiftedGreen rollRows
  have hh : (0 : ℤ) < (img.height : ℤ) := by exact_mod_cast Nat.pos_of_ne_zero (by omega)
  have h1 : 0 ≤ ((y : ℤ) - (-s).fdiv 2) % (img.height : ℤ) := Int.emod_nonneg _ (by omega)
  have h2 : ((y : ℤ) - (-s).fdiv 2) % (img.height : ℤ) < (img.height : ℤ) :=
    Int.emod_lt_of_pos _ hh
  have hc : (((y : ℤ) - (-s).fdiv 2) % (img.height : ℤ)).toNat < img.height := by omega
  exact (hwf x hx _ hc).2.1

theorem blend_nonneg {i : ℚ} (s o : ℕ) (h0 : 0 ≤ i) (h1 : i ≤ 1) :
    0 ≤ i * s + (1 - i) * o := by
  have hs : (0 : ℚ) ≤ s := by positivity
  have ho : (0 : ℚ) ≤ o := by positivity
  have := mul_nonneg h0 hs
  have := mul_nonneg (by linarith : (0 : ℚ) ≤ 1 - i) ho
  linarith

theorem blend_le_255 {i : ℚ} {s o : ℕ} (h0 : 0 ≤ i) (h1 : i ≤ 1)
    (hs : s ≤ 255) (ho : o ≤ 255) : i * s + (1 - i) * o ≤ 255 := by
  have hs' : (s : ℚ) ≤ 255 := by exact_mod_cast hs
  have ho' : (o : ℚ) ≤ 255 := by exact_mod_cast ho
  have t1 : i * s ≤ i * 255 := mul_le_mul_of_nonneg_left hs' h0
  have t2 : (1 - i) * o ≤ (1 - i) * 255 :=
    mul_le_mul_of_nonneg_left ho' (by linarith)
  linarith

/-- Blending a channel value with itself is the identity, whatever the
intensity, as long as the value is 8-bit. -/
theorem blendChan_self (i : ℚ) (v : ℕ) (hv : v ≤ 255) : blendChan i v v = v := by
  unfold blendChan
  rw [show i * v + (1 - i) * v = ((v : ℕ) : ℚ) by ring]
  exact npCastU8_natCast v hv

/-- C1 (counterexample): with `shift_amount = 5` and `intensity = 1`, the
output green plane does not match a circular shift by
`-(5 / 2) = -2` rows (integer division truncating toward zero): the code
shifts by `(-5) // 2 = -3` rows instead. -/
theorem glitch_green_shift_trunc_cex :
    ((apply_refined_glitch_effect imgRows 5 1).px 0 0).2.1
      ≠ greenPlane imgRows ((((0 : ℕ) : ℤ) - (-(5 : ℤ)).tdiv 2) % (imgRows.height : ℤ)).toNat 0 := by
  decide

/-- C1 (amended): the green channel plane is circularly shifted vertically
by `(-shift_amount) // 2` rows with Python floor division (rounding toward
negative infinity, so for `shift_amount = 5` the shift is `-3` rows), with
wrap-around: the input row `y` lands on output row
`(y + (-shift_amount) // 2) mod height`. -/
theorem glitch_green_shift_floor (img : Img) (s : ℤ) (y x : ℕ)
    (hy : y < img.height) :
    shiftedGreen img s ((((y : ℕ) : ℤ) + (-s).fdiv 2) % (img.height : ℤ)).toNat x
      = greenPlane img y x := by
  unfold shiftedGreen rollRows
  have hh : (0 : ℤ) < (img.height : ℤ) := by exact_mod_cast Nat.pos_of_ne_zero (by omega)
  set k : ℤ := (-s).fdiv 2 with hk
  have h1 : 0 ≤ ((y : ℤ) + k) % (img.height : ℤ) := Int.emod_nonneg _ (by omega)
  have hcast : (((((y : ℤ) + k) % (img.height : ℤ)).toNat : ℤ))
      = ((y : ℤ) + k) % (img.height : ℤ) := Int.toNat_of_nonneg h1
  rw [hcast]
  have h2 : (((y : ℤ) + k) % (img.height : ℤ) - k) % (img.height : ℤ) = (y : ℤ) := by
    have e1 : (((y : ℤ) + k) % (img.height : ℤ) - k) % (img.height : ℤ)
        = (((y : ℤ) + k) - k) % (img.height : ℤ) := by
      rw [Int.sub_emod, Int.emod_emod_of_dvd _ dvd_rfl, ← Int.sub_emod]
    rw [e1, add_sub_cancel_right]
    exact Int.emod_eq_of_lt (by positivity) (by exact_mod_cast hy)
  rw [h2]
  simp

/-- Witness for the amended C1 theorem at a concrete image and shift. -/
theorem glitch_green_shift_floor_witness :
    1 < imgRows.height ∧
      shiftedGreen imgRows 5 ((((1 : ℕ) : ℤ) + (-(5 : ℤ)).fdiv 2) % (imgRows.height : ℤ)).toNat 0
        = greenPlane imgRows 1 0 :=
  ⟨by decide, glitch_green_shift_floor imgRows 5 1 0 (by decide)⟩

/-- C3 (counterexample): with a 2×1 image whose red channel is `[0, 1]`,
`shift_amount = 1` and `intensity = 4/5`, the output red value at (0,0) is
the truncation `⌊0.8⌋ = 0`, not the claimed rounding-to-nearest
`round(0.8) = 1` (saturated to [0,255]). -/
theorem glitch_blend_round_cex :
    ((apply_refined_glitch_effect imgCols 1 (4/5)).px 0 0).1
      ≠ min 255 (round ((4/5 : ℚ) * (shiftedRed imgCols 1 0 0 : ℕ)
          + (1 - 4/5) * (redPlane imgCols 0 0 : ℕ))).toNat := by
  decide

/-- C3 (amended): each output red and green channel value equals
`intensity*shifted + (1-intensity)*original` truncated toward zero (the
numpy `astype(np.uint8)` cast); the blend is a convex combination of
8-bit values, so it already lies in [0,255] and saturation never alters
it. -/
theorem glitch_blend_trunc (img : Img) (s : ℤ) (i : ℚ) (hwf : img.Wf)
    (h0 : 0 ≤ i) (h1 : i ≤ 1) (x y : ℕ)
    (hx : x < img.width) (hy : y < img.height) :
    (0 ≤ i * (shiftedRed img s y x : ℕ) + (1 - i) * (redPlane img y x : ℕ) ∧
        i * (shiftedRed img s y x : ℕ) + (1 - i) * (redPlane img y x : ℕ) ≤ 255 ∧
        ((apply_refined_glitch_effect img s i).px x y).1
          = (ratTrunc (i * (shiftedRed img s y x : ℕ)
              + (1 - i) * (redPlane img y x : ℕ))).toNat) ∧
      (0 ≤ i * (shiftedGreen img s y x : ℕ) + (1 - i) * (greenPlane img y x : ℕ) ∧
        i * (shiftedGreen img s y x : ℕ) + (1 - i) * (greenPlane img y x : ℕ) ≤ 255 ∧
        ((apply_refined_glitch_effect img s i).px x y).2.1
          = (ratTrunc (i * (shiftedGreen img s y x : ℕ)
              + (1 - i) * (greenPlane img y x : ℕ))).toNat) := by
  have hr : redPlane img y x ≤ 255 := (hwf x hx y hy).1
  have hg : greenPlane img y x ≤ 255 := (hwf x hx y hy).2.1
  have hsr : shiftedRed img s y x ≤ 255 := shiftedRed_le img s hwf y x hx hy
  have hsg : shiftedGreen img s y x ≤ 255 := shiftedGreen_le img s hwf y x hx hy
  refine ⟨⟨blend_nonneg _ _ h0 h1, blend_le_255 h0 h1 hsr hr, ?_⟩,
    ⟨blend_nonneg _ _ h0 h1, blend_le_255 h0 h1 hsg hg, ?_⟩⟩
  · exact npCastU8_of_le (blend_nonneg _ _ h0 h1) (blend_le_255 h0 h1 hsr hr)
  · exact npCastU8_of_le (blend_nonneg _ _ h0 h1) (blend_le_255 h0 h1 hsg hg)

/-- Witness for the amended C3 theorem at a concrete image and intensity. -/
theorem glitch_blend_trunc_witness :
    imgCols.Wf ∧ (0 : ℚ) ≤ 4/5 ∧ (4/5 : ℚ) ≤ 1 ∧ 0 < imgCols.width ∧ 0 < imgCols.height ∧
      ((apply_refined_glitch_effect imgCols 1 (4/5)).px 0 0).1
        = (ratTrunc ((4/5 : ℚ) * (shiftedRed imgCols 1 0 0 : ℕ)
            + (1 - 4/5) * (redPlane imgCols 0 0 : ℕ))).toNat :=
  ⟨by decide, by norm_num, by norm_num, by decide, by decide,
    (glitch_blend_trunc imgCols 1 (4/5) (by decide) (by norm_num) (by norm_num)
      0 0 (by decide) (by decide)).1.2.2⟩

/-- C5: with `shift_amount = 0` the glitch filter is the identity on any
well-formed image, whatever the intensity: dimensions and every in-bounds
pixel are unchanged. -/
theorem glitch_shift_zero_id (img : Img) (i : ℚ) (hwf : img.Wf) :
    (apply_refined_glitch_effect img 0 i).width = img.width ∧
      (apply_refined_glitch_effect img 0 i).height = img.height ∧
      ∀ x < img.width, ∀ y < img.height,
        (apply_refined_glitch_effect img 0 i).px x y = img.px x y := by
  refine ⟨rfl, rfl, fun x hx y hy => ?_⟩
  have hw : (0 : ℤ) < (img.width : ℤ) := by exact_mod_cast Nat.pos_of_ne_zero (by omega)
  have hh : (0 : ℤ) < (img.height : ℤ) := by exact_mod_cast Nat.pos_of_ne_zero (by omega)
  have hsr : shiftedRed img 0 y x = redPlane img y x := by
    unfold shiftedRed rollCols
    rw [show ((x : ℤ) - 0) = (x : ℤ) by ring,
      Int.emod_eq_of_lt (by positivity) (by exact_mod_cast hx)]
    simp
  have hsg : shiftedGreen img 0 y x = greenPlane img y x := by
    unfold shiftedGreen rollRows
    rw [show ((-(0 : ℤ)).fdiv 2) = 0 by decide,
      show ((y : ℤ) - 0) = (y : ℤ) by ring,
      Int.emod_eq_of_lt (by positivity) (by exact_mod_cast hy)]
    simp
  show (blendChan i (shiftedRed img 0 y x) (redPlane img y x),
      blendChan i (shiftedGreen img 0 y x) (greenPlane img y x),
      bluePlane img y x) = img.px x y
  rw [hsr, hsg,
    blendChan_self i _ (show redPlane img y x ≤ 255 from (hwf x hx y hy).1),
    blendChan_self i _ (show greenPlane img y x ≤ 255 from (hwf x hx y hy).2.1)]
  rfl

/-- Witness for the C5 theorem at a concrete image and intensity. -/
theorem glitch_shift_zero_id_witness :
    imgTest.Wf ∧ 0 < imgTest.width ∧ 0 < imgTest.height ∧
      (apply_refined_glitch_effect imgTest 0 (2/3)).px 0 0 = imgTest.px 0 0 :=
  ⟨by decide, by decide, by decide,
    (glitch_shift_zero_id imgTest (2/3) (by decide)).2.2 0 (by decide) 0 (by decide)⟩

/-- C7: the glitch filter passes the blue channel through unchanged at
every coordinate, for every image, shift amount and intensity. -/
theorem glitch_blue_unchanged (img : Img) (s : ℤ) (i : ℚ) (x y : ℕ) :
    ((apply_refined_glitch_effect img s i).px x y).2.2 = (img.px x y).2.2 := rfl

/-! ## CRT warp filter: `apply_crt_warp_effect`

The Python code computes `distance = sqrt(dx²+dy²)`,
`max_distance = sqrt(cx²+cy²)` and uses only
`(distance / max_distance)**2`, which equals `(dx²+dy²) / (cx²+cy²)`
exactly; the embedding uses that square directly, so no square root is
needed. -/

/-- The inverse-mapped source coordinate `(src_x, src_y)` for destination
pixel `(x, y)`. -/
def warpSrc (w h : ℕ) (strength : ℚ) (x y : ℕ) : ℚ × ℚ :=
  let cx : ℚ := w / 2
  let cy : ℚ := h / 2
  let dx : ℚ := x - cx
  let dy : ℚ := y - cy
  let distortion : ℚ := 1 + strength * ((dx * dx + dy * dy) / (cx * cx + cy * cy))
  (cx + dx / distortion, cy + dy / distortion)

/-- The integer sample coordinates `(x0, y0, x1, y1)`:
`x0, y0 = int(src_x), int(src_y)` and
`x1, y1 = min(x0 + 1, width - 1), min(y0 + 1, height - 1)`. -/
def warpNbr (w h : ℕ) (strength : ℚ) (x y : ℕ) : ℤ × ℤ × ℤ × ℤ :=
  let s := warpSrc w h strength x y
  let x0 := ratTrunc s.1
  let y0 := ratTrunc s.2
  (x0, y0, min (x0 + 1) ((w : ℤ) - 1), min (y0 + 1) ((h : ℤ) - 1))

/-- Bilinear interpolation of one channel, truncated to an integer by
Python `int()`. -/
def bilinChan (a b : ℚ) (v00 v10 v01 v11 : ℕ) : ℕ :=
  (ratTrunc ((1 - a) * (1 - b) * v00 + a * (1 - b) * v10
    + (1 - a) * b * v01 + a * b * v11)).toNat

/-- One destination pixel of the CRT warp: bilinear sample if the primary
source coordinate check passes, else the black background the output was
initialized with. -/
def warpPixel (img : Img) (strength : ℚ) (x y : ℕ) : RGB :=
  let s := warpSrc img.width img.height strength x y
  let n := warpNbr img.width img.height strength x y
  let a := s.1 - n.1
  let b := s.2 - n.2.1
  if 0 ≤ n.1 ∧ n.1 < (img.width : ℤ) ∧ 0 ≤ n.2.1 ∧ n.2.1 < (img.height : ℤ) then
    (bilinChan a b (img.px n.1.toNat n.2.1.toNat).1 (img.px n.2.2.1.toNat n.2.1.toNat).1
        (img.px n.1.toNat n.2.2.2.toNat).1 (img.px n.2.2.1.toNat n.2.2.2.toNat).1,
     bilinChan a b (img.px n.1.toNat n.2.1.toNat).2.1 (img.px n.2.2.1.toNat n.2.1.toNat).2.1
        (img.px n.1.toNat n.2.2.2.toNat).2.1 (img.px n.2.2.1.toNat n.2.2.2.toNat).2.1,
     bilinChan a b (img.px n.1.toNat n.2.1.toNat).2.2 (img.px n.2.2.1.toNat n.2.1.toNat).2.2
        (img.px n.1.toNat n.2.2.2.toNat).2.2 (img.px n.2.2.1.toNat n.2.2.2.toNat).2.2)
  else (0, 0, 0)

/-- The CRT warp filter, `apply_crt_warp_effect`. -/
def apply_crt_warp_effect (img : Img) (strength : ℚ) : Img :=
  ⟨img.width, img.height, fun x y => warpPixel img strength x y⟩

theorem warpSrc_zero (w h x y : ℕ) : warpSrc w h 0 x y = ((x : ℚ), (y : ℚ)) := by
  unfold warpSrc
  simp only [zero_mul, add_zero, div_one]
  rw [Prod.mk.injEq]
  constructor <;> ring

theorem bilinChan_zero (v00 v10 v01 v11 : ℕ) : bilinChan 0 0 v00 v10 v01 v11 = v00 := by
  unfold bilinChan
  rw [show ((1 - 0) * (1 - 0) * (v00 : ℚ) + 0 * (1 - 0) * v10
      + (1 - 0) * 0 * v01 + 0 * 0 * v11) = ((v00 : ℕ) : ℚ) by ring,
    ratTrunc_natCast]
  exact Int.toNat_natCast _

/-- C6: with `strength = 0` the CRT warp is the exact identity: the
inverse mapping degenerates to source = destination and every in-bounds
output pixel equals the corresponding input pixel. -/
theorem warp_strength_zero_id (img : Img) (x y : ℕ)
    (hx : x < img.width) (hy : y < img.height) :
    (apply_crt_warp_effect img 0).px x y = img.px x y := by
  show warpPixel img 0 x y = img.px x y
  unfold warpPixel warpNbr
  rw [warpSrc_zero]
  simp only [ratTrunc_natCast]
  rw [if_pos ⟨by positivity, by exact_mod_cast hx, by positivity, by exact_mod_cast hy⟩]
  simp only [Int.cast_natCast, sub_self, Int.toNat_natCast, bilinChan_zero]

/-- Witness for the C6 theorem at a concrete image and pixel. -/
theorem warp_strength_zero_id_witness :
    0 < imgTest.width ∧ 0 < imgTest.height ∧
      (apply_crt_warp_effect imgTest 0).px 0 0 = imgTest.px 0 0 :=
  ⟨by decide, by decide, warp_strength_zero_id imgTest 0 0 (by decide) (by decide)⟩

/-- C9: whenever the primary source coordinate check `0 ≤ x0 < width` and
`0 ≤ y0 < height` passes, the clamped second neighbors `x1, y1` also lie
in bounds, so all four bilinear reads (x0,y0), (x1,y0), (x0,y1), (x1,y1)
are in-range. -/
theorem warp_neighbors_in_bounds (w h : ℕ) (strength : ℚ) (x y : ℕ)
    (hx0 : 0 ≤ (warpNbr w h strength x y).1)
    (hx0w : (warpNbr w h strength x y).1 < (w : ℤ))
    (hy0 : 0 ≤ (warpNbr w h strength x y).2.1)
    (hy0h : (warpNbr w h strength x y).2.1 < (h : ℤ)) :
    (0 ≤ (warpNbr w h strength x y).1 ∧ (warpNbr w h strength x y).1 < (w : ℤ)) ∧
      (0 ≤ (warpNbr w h strength x y).2.2.1 ∧ (warpNbr w h strength x y).2.2.1 < (w : ℤ)) ∧
      (0 ≤ (warpNbr w h strength x y).2.1 ∧ (warpNbr w h strength x y).2.1 < (h : ℤ)) ∧
      (0 ≤ (warpNbr w h strength x y).2.2.2 ∧ (warpNbr w h strength x y).2.2.2 < (h : ℤ)) := by
  unfold warpNbr at *
  simp only at *
  omega

/-- Witness for the C9 theorem at a concrete geometry. -/
theorem warp_neighbors_in_bounds_witness :
    (0 ≤ (warpNbr 2 2 0 0 0).1 ∧ (warpNbr 2 2 0 0 0).1 < (2 : ℤ) ∧
        0 ≤ (warpNbr 2 2 0 0 0).2.1 ∧ (warpNbr 2 2 0 0 0).2.1 < (2 : ℤ)) ∧
      (0 ≤ (warpNbr 2 2 0 0 0).2.2.1 ∧ (warpNbr 2 2 0 0 0).2.2.1 < (2 : ℤ)) ∧
      (0 ≤ (warpNbr 2 2 0 0 0).2.2.2 ∧ (warpNbr 2 2 0 0 0).2.2.2 < (2 : ℤ)) :=
  ⟨⟨by decide, by decide, by decide, by decide⟩,
    (warp_neighbors_in_bounds 2 2 0 0 0 (by decide) (by decide) (by decide) (by decide)).2.1,
    (warp_neighbors_in_bounds 2 2 0 0 0 (by decide) (by decide) (by decide) (by decide)).2.2.2⟩

/-! ## Corner mask: `round_corners` -/

/-- Modelled from the spec: the mask built by the external library call
`draw.rounded_rectangle((0, 0, w, h), radius, fill=255)` — a pixel is
opaque iff it lies within the rounded rectangle, i.e. within distance
`radius` of the central cross-shaped region.  Only the mask's geometry is
modelled; the claims below depend only on the output dimensions. -/
def insideRoundedRect (w h r x y : ℕ) : Bool :=
  let xi : ℤ := x
  let yi : ℤ := y
  let nx : ℤ := max (r : ℤ) (min xi ((w : ℤ) - r))
  let ny : ℤ := max (r : ℤ) (min yi ((h : ℤ) - r))
  decide ((xi - nx) * (xi - nx) + (yi - ny) * (yi - ny) ≤ (r : ℤ) * r)

/-- The corner mask, `round_corners`: paste the source onto a black RGB
canvas of the same size through the rounded-rectangle mask. -/
def round_corners (img : Img) (radius : ℕ) : Img :=
  { width := img.width
    height := img.height
    px := fun x y =>
      if insideRoundedRect img.width img.height radius x y then img.px x y
      else (0, 0, 0) }

/-- C8: the CRT warp, the glitch filter and the corner mask all return an
image with the same width and height as their input. -/
theorem filters_preserve_dims (img : Img) (strength : ℚ) (s : ℤ) (i : ℚ) (radius : ℕ) :
    ((apply_crt_warp_effect img strength).width = img.width ∧
        (apply_crt_warp_effect img strength).height = img.height) ∧
      ((apply_refined_glitch_effect img s i).width = img.width ∧
        (apply_refined_glitch_effect img s i).height = img.height) ∧
      ((round_corners img radius).width = img.width ∧
        (round_corners img radius).height = img.height) :=
  ⟨⟨rfl, rfl⟩, ⟨rfl, rfl⟩, rfl, rfl⟩

/-! ## LCD subpixel renderer: `apply_lcd_pixel_effect` -/

/-- A drawing canvas: the pixel grid of the output image being built. -/
abbrev Canvas := ℕ → ℕ → RGB

/-- PIL `ImageDraw.Draw(...).rectangle([x0, y0, x1, y1], fill=c)`: it fills
the rectangle inclusive of both corner points; coordinates outside the
canvas are never read back, so clipping needs no special treatment. -/
def fillRect (x0 y0 x1 y1 : ℤ) (c : RGB) (cv : Canvas) : Canvas :=
  fun x y =>
    if x0 ≤ (x : ℤ) ∧ (x : ℤ) ≤ x1 ∧ y0 ≤ (y : ℤ) ∧ (y : ℤ) ≤ y1 then c
    else cv x y

/-- One boosted channel, `min(int(v * brightness_boost), 255)`. -/
def boostCh (boost : ℚ) (v : ℕ) : ℕ :=
  min (ratTrunc ((v : ℚ) * boost)).toNat 255

/-- The brightness-boosted source pixel `(r, g, b)`. -/
def boostPix (boost : ℚ) (c : RGB) : RGB :=
  (boostCh boost c.1, boostCh boost c.2.1, boostCh boost c.2.2)

/-- Draw the three sub-pixel stripe rectangles for the block of source
pixel (bx, b0), in source order red, green, blue, with
`subpixel_size = pixel_size // 3`; an unrecognized orientation draws
nothing. -/
def drawBlock (p : ℕ) (o : String) (bx b0 : ℕ) (c : RGB) (cv : Canvas) : Canvas :=
  let s := p / 3
  let X0 : ℤ := (bx : ℤ) * p
  let Y0 : ℤ := (b0 : ℤ) * p
  if o = "vertical" then
    fillRect (X0 + 2 * s) Y0 (X0 + p) (Y0 + p) (0, 0, c.2.2)
      (fillRect (X0 + s) Y0 (X0 + 2 * s) (Y0 + p) (0, c.2.1, 0)
        (fillRect X0 Y0 (X0 + s) (Y0 + p) (c.1, 0, 0) cv))
  else if o = "horizontal" then
    fillRect X0 (Y0 + 2 * s) (X0 + p) (Y0 + p) (0, 0, c.2.2)
      (fillRect X0 (Y0 + s) (X0 + p) (Y0 + 2 * s) (0, c.2.1, 0)
        (fillRect X0 Y0 (X0 + p) (Y0 + s) (c.1, 0, 0) cv))
  else cv

/-- The whole drawing loop of `apply_lcd_pixel_effect`
(`for y in range(height): for x in range(width): …`) over the black
canvas the output image is created with. -/
def lcdCanvas (D : Img) (p : ℕ) (boost : ℚ) (o : String) : Canvas :=
  (List.range D.height).foldl
    (fun cv j =>
      (List.range D.width).foldl
        (fun cv2 i => drawBlock p o i j (boostPix boost (D.px i j)) cv2) cv)
    (fun _ _ => (0, 0, 0))

/-- Sum of one channel over the `p × p` source block at block index (x, y). -/
def blockSum (img : Img) (p x y : ℕ) (f : RGB → ℕ) : ℕ :=
  ∑ j ∈ Finset.range p, ∑ i ∈ Finset.range p, f (img.px (x * p + i) (y * p + j))

/-- Modelled from the spec: the external library call
`image.resize((w // p, h // p), Image.Resampling.BOX)` — at an exact
integer factor, BOX resampling replaces each `p × p` block by its
average (rounded to nearest).  The claims below treat the downsampled
pixel values opaquely; only the dimensions matter. -/
def resizeBox (img : Img) (p : ℕ) : Img :=
  { width := img.width / p
    height := img.height / p
    px := fun x y =>
      ((2 * blockSum img p x y (fun c => c.1) + p * p) / (2 * (p * p)),
       (2 * blockSum img p x y (fun c => c.2.1) + p * p) / (2 * (p * p)),
       (2 * blockSum img p x y (fun c => c.2.2) + p * p) / (2 * (p * p))) }

/-- The LCD subpixel filter, `apply_lcd_pixel_effect`: downsample, then
re-draw each pixel as a block of stripes on a black canvas of size
`(width * pixel_size, height * pixel_size)` (sizes of the downsampled
image). -/
def apply_lcd_pixel_effect (img : Img) (p : ℕ) (boost : ℚ) (o : String) : Img :=
  { width := (resizeBox img p).width * p
    height := (resizeBox img p).height * p
    px := lcdCanvas (resizeBox img p) p boost o }

/-- The effective color at offset (cx, cy) inside a block: the last of
the three stripe rectangles covering it.  Stripes split the block at
`s = p / 3` and `2 * s`; the third stripe absorbs the remainder. -/
def stripePix (o : String) (p : ℕ) (c : RGB) (cx cy : ℕ) : RGB :=
  let s := p / 3
  let t := if o = "vertical" then cx else cy
  if 2 * s ≤ t then (0, 0, c.2.2)
  else if s ≤ t then (0, c.2.1, 0)
  else (c.1, 0, 0)

/-- Inside its own (closed) block, a drawn block's value is the stripe
color of the last rectangle covering the point. -/
theorem drawBlock_in (p : ℕ) (o : String) (ho : o = "vertical" ∨ o = "horizontal")
    (bx b0 : ℕ) (c : RGB) (cv : Canvas) (X Y : ℕ)
    (hx1 : bx * p ≤ X) (hx2 : X ≤ bx * p + p)
    (hy1 : b0 * p ≤ Y) (hy2 : Y ≤ b0 * p + p) :
    drawBlock p o bx b0 c cv X Y = stripePix o p c (X - bx * p) (Y - b0 * p) := by
  rcases ho with ho | ho <;> subst ho
  · simp only [drawBlock, fillRect, stripePix, reduceIte]
    split_ifs <;> first | rfl | omega
  · simp only [drawBlock, fillRect, stripePix, String.reduceEq, reduceIte]
    split_ifs <;> first | rfl | omega

/-- Outside its own (closed) block, drawing a block leaves the canvas
unchanged, whatever the orientation. -/
theorem drawBlock_out (p : ℕ) (o : String) (bx b0 : ℕ) (c : RGB) (cv : Canvas)
    (X Y : ℕ)
    (h : X < bx * p ∨ bx * p + p < X ∨ Y < b0 * p ∨ b0 * p + p < Y) :
    drawBlock p o bx b0 c cv X Y = cv X Y := by
  by_cases h1 : o = "vertical"
  · subst h1
    simp only [drawBlock, fillRect, reduceIte]
    split_ifs <;> first | rfl | omega
  · by_cases h2 : o = "horizontal"
    · subst h2
      simp only [drawBlock, fillRect, String.reduceEq, reduceIte, if_neg h1]
      split_ifs <;> first | rfl | omega
    · simp only [drawBlock, if_neg h1, if_neg h2]

/-- A row of the drawing loop does not touch pixels outside its band of
rows. -/
theorem rowFold_out (p : ℕ) (o : String) (b0 : ℕ) (colors : ℕ → RGB) (n : ℕ)
    (cv : Canvas) (X Y : ℕ) (h : Y < b0 * p ∨ b0 * p + p < Y) :
    ((List.range n).foldl (fun cv2 i => drawBlock p o i b0 (colors i) cv2) cv) X Y
      = cv X Y := by
  induction n with
  | zero => rfl
  | succ n ih =>
    rw [List.range_succ, List.foldl_append, List.foldl_cons, List.foldl_nil,
      drawBlock_out p o n b0 _ _ X Y (by omega), ih]

/-- Inside its band of rows, a row of the drawing loop paints each pixel
with the stripe color of its own block, regardless of the canvas it
started from. -/
theorem rowFold_in (p : ℕ) (o : String) (ho : o = "vertical" ∨ o = "horizontal")
    (b0 : ℕ) (colors : ℕ → RGB) (n : ℕ) (cv : Canvas) (X Y : ℕ)
    (hy1 : b0 * p ≤ Y) (hy2 : Y ≤ b0 * p + p) (hX : X < n * p) :
    ((List.range n).foldl (fun cv2 i => drawBlock p o i b0 (colors i) cv2) cv) X Y
      = stripePix o p (colors (X / p)) (X % p) (Y - b0 * p) := by
  induction n with
  | zero => omega
  | succ n ih =>
    rw [Nat.succ_mul] at hX
    rw [List.range_succ, List.foldl_append, List.foldl_cons, List.foldl_nil]
    by_cases hc : X < n * p
    · rw [drawBlock_out p o n b0 _ _ X Y (by omega)]
      exact ih hc
    · have h1 : n * p ≤ X := by omega
      have h2 : X ≤ n * p + p := by omega
      rw [drawBlock_in p o ho n b0 _ _ X Y h1 h2 hy1 hy2]
      have hdiv : X / p = n := Nat.div_eq_of_lt_le h1 (by rw [Nat.succ_mul]; omega)
      have hm := Nat.mod_add_div' X p
      rw [hdiv] at hm
      rw [hdiv, show X % p = X - n * p by omega]

/-- The whole drawing loop paints every pixel of the output grid with the
stripe color of its block, for a recognized orientation. -/
theorem lcdCanvas_eq (D : Img) (p : ℕ) (boost : ℚ) (o : String)
    (ho : o = "vertical" ∨ o = "horizontal") (X Y : ℕ)
    (hX : X < D.width * p) (hY : Y < D.height * p) :
    lcdCanvas D p boost o X Y
      = stripePix o p (boostPix boost (D.px (X / p) (Y / p))) (X % p) (Y % p) := by
  unfold lcdCanvas
  have main : ∀ (m : ℕ) (cv : Canvas), Y < m * p →
      ((List.range m).foldl
        (fun cv j => (List.range D.width).foldl
          (fun cv2 i => drawBlock p o i j (boostPix boost (D.px i j)) cv2) cv)
        cv) X Y
      = stripePix o p (boostPix boost (D.px (X / p) (Y / p))) (X % p) (Y % p) := by
    intro m
    induction m with
    | zero => omega
    | succ m ih =>
      intro cv hYm
      rw [Nat.succ_mul] at hYm
      rw [List.range_succ, List.foldl_append, List.foldl_cons, List.foldl_nil]
      by_cases hc : Y < m * p
      · rw [rowFold_out p o m _ D.width _ X Y (by omega)]
        exact ih cv hc
      · have h1 : m * p ≤ Y := by omega
        have h2 : Y ≤ m * p + p := by omega
        rw [rowFold_in p o ho m _ D.width _ X Y h1 h2 hX]
        have hdiv : Y / p = m := Nat.div_eq_of_lt_le h1 (by rw [Nat.succ_mul]; omega)
        have hm := Nat.mod_add_div' Y p
        rw [hdiv] at hm
        rw [hdiv, show Y % p = Y - m * p by omega]
  exact main D.height _ hY

/-- A 3×3 test image with all channel values 1. -/
def imgOnes : Img := ⟨3, 3, fun _ _ => (1, 1, 1)⟩

/-- C4: the subpixel renderer's output dimensions are
`(width // block_size) * block_size` by
`(height // block_size) * block_size`, for every image, block size,
brightness multiplier and orientation. -/
theorem lcd_output_dims (img : Img) (p : ℕ) (boost : ℚ) (o : String) :
    (apply_lcd_pixel_effect img p boost o).width = img.width / p * p ∧
      (apply_lcd_pixel_effect img p boost o).height = img.height / p * p :=
  ⟨rfl, rfl⟩

/-- C2 (counterexample): on a 3×3 all-ones image with block size 3 and
brightness boost 17/10, the downsampled source channel is 1 and the output
pixel (0,0) has red value `int(1 * 1.7) = 1`, not the claimed
`min(255, round(1 * 1.7)) = 2`. -/
theorem lcd_boost_round_cex :
    (apply_lcd_pixel_effect imgOnes 3 (17/10) "vertical").px 0 0
      ≠ (min 255 (round ((((resizeBox imgOnes 3).px 0 0).1 : ℚ) * (17/10))).toNat, 0, 0) := by
  decide

/-- C2 (amended): for a recognized orientation, every output pixel is the
stripe color of its block: channel values 0 except in the channel assigned
to its stripe, whose value is `min(255, int(source_channel * brightness_boost))`
— the product is truncated toward zero by Python `int()`, not rounded to
nearest — where the source pixel is the box-downsampled pixel of the
block. -/
theorem lcd_stripe_values (img : Img) (p : ℕ) (boost : ℚ) (o : String)
    (hp : 0 < p) (hb : 0 ≤ boost) (ho : o = "vertical" ∨ o = "horizontal") (X Y : ℕ)
    (hX : X < (apply_lcd_pixel_effect img p boost o).width)
    (hY : Y < (apply_lcd_pixel_effect img p boost o).height) :
    (apply_lcd_pixel_effect img p boost o).px X Y
      = stripePix o p (boostPix boost ((resizeBox img p).px (X / p) (Y / p)))
          (X % p) (Y % p) :=
  lcdCanvas_eq (resizeBox img p) p boost o ho X Y hX hY

/-- Witness for the amended C2 theorem at a concrete image. -/
theorem lcd_stripe_values_witness :
    (0 : ℕ) < 3 ∧ (0 : ℚ) ≤ 3/2 ∧
      0 < (apply_lcd_pixel_effect imgOnes 3 (3/2) "vertical").width ∧
      0 < (apply_lcd_pixel_effect imgOnes 3 (3/2) "vertical").height ∧
      (apply_lcd_pixel_effect imgOnes 3 (3/2) "vertical").px 0 0
        = stripePix "vertical" 3 (boostPix (3/2) ((resizeBox imgOnes 3).px 0 0)) 0 0 :=
  ⟨by decide, by norm_num, by decide, by decide,
    lcd_stripe_values imgOnes 3 (3/2) "vertical" (by decide) (by norm_num)
      (Or.inl rfl) 0 0 (by decide) (by decide)⟩

/-- C10: an unrecognized orientation string draws no stripes: the output
still has size `(width // block_size) * block_size` by
`(height // block_size) * block_size` but every pixel is black. -/
theorem lcd_invalid_orientation_black (img : Img) (p : ℕ) (boost : ℚ) (o : String)
    (h1 : o ≠ "vertical") (h2 : o ≠ "horizontal") :
    (apply_lcd_pixel_effect img p boost o).width = img.width / p * p ∧
      (apply_lcd_pixel_effect img p boost o).height = img.height / p * p ∧
      ∀ X Y, (apply_lcd_pixel_effect img p boost o).px X Y = (0, 0, 0) := by
  refine ⟨rfl, rfl, fun X Y => ?_⟩
  show lcdCanvas (resizeBox img p) p boost o X Y = (0, 0, 0)
  unfold lcdCanvas
  have hblock : ∀ (bx b0 : ℕ) (c : RGB) (cv : Canvas), drawBlock p o bx b0 c cv = cv := by
    intro bx b0 c cv
    simp only [drawBlock, if_neg h1, if_neg h2]
  have inner : ∀ (j : ℕ) (l : List ℕ) (cv : Canvas),
      l.foldl (fun cv2 i => drawBlock p o i j (boostPix boost ((resizeBox img p).px i j)) cv2) cv
        = cv := by
    intro j l
    induction l with
    | nil => intro cv; rfl
    | cons a t ih =>
      intro cv
      rw [List.foldl_cons, hblock]
      exact ih cv
  have outer : ∀ (l : List ℕ) (cv : Canvas),
      l.foldl (fun cv j =>
        (List.range (resizeBox img p).width).foldl
          (fun cv2 i => drawBlock p o i j (boostPix boost ((resizeBox img p).px i j)) cv2) cv)
        cv = cv := by
    intro l
    induction l with
    | nil => intro cv; rfl
    | cons a t ih =>
      intro cv
      rw [List.foldl_cons, inner a]
      exact ih cv
  rw [outer]

/-- Witness for the C10 theorem at a concrete orientation string. -/
theorem lcd_invalid_orientation_black_witness :
    "x" ≠ "vertical" ∧ "x" ≠ "horizontal" ∧
      (apply_lcd_pixel_effect imgTest 2 1 "x").px 1 1 = (0, 0, 0) :=
  ⟨by decide, by decide,
    (lcd_invalid_orientation_black imgTest 2 1 "x" (by decide) (by decide)).2.2 1 1⟩

end RetroImage
